import Mathlib

/-!
Verification of the gitvisualizer large-history retrieval and graph-assembly
pipeline, shallowly embedded from the TypeScript sources:

* `src/backend/src/routes/repository.routes.ts` (Express routes together with
  the concatenated `GitService` class): size classifier `getRepoStats`,
  paginated fetch `getCommitsPaginated`, chunked generator `streamCommits`,
  and the SSE handler of `POST /repository/stream`;
* `src/frontend/src/utils/layoutEngine.ts`: `layoutCommitGraph`;
* the client store (`loadRepoWithMode`, callbacks `onMetadata` / `onCommits` /
  `onError`).

Modelling conventions.  JavaScript numbers are embedded as `Nat` / `Int` where
the code only ever holds integers, and as `ℚ` where a division occurs; the one
place where the code can produce `NaN` (dividing by a zero commit total in
`streamCommits`) is embedded as `Option ℤ`, with `none` standing for `NaN`.
Asynchronous git calls are embedded by their results: a repository is the pair
of its full `git log --all --date-order` enumeration and its
`--first-parent` enumeration, with `git rev-list --all --count` equal to the
length of the full enumeration (both enumerate the commits reachable from the
refs) and the first-parent enumeration no longer than the full one (it visits
a subset of those commits).
-/

namespace GitVis

/-- Author record, from the `Author` interface of the git service. -/
structure Author where
  name : String
  email : String
deriving DecidableEq, Repr

/-- Ref decoration attached to a commit, from the `RefInfo` interface. -/
structure RefInfo where
  name : String
  type : String
  isHead : Bool
deriving DecidableEq, Repr

/-- Commit record, from the `Commit` interface of the git service. -/
structure Commit where
  hash : String
  shortHash : String
  message : String
  body : String
  author : Author
  date : String
  parents : List String
  refs : List RefInfo
deriving DecidableEq, Repr

/-- Repository statistics, from the `RepoStats` interface. -/
structure RepoStats where
  totalCommits : Nat
  isLargeRepo : Bool
  recommendedMode : String
deriving DecidableEq, Repr

/-- Size classifier, from `GitService.getRepoStats`: the branch structure on
`LARGE_REPO_THRESHOLD = 10000` and `HUGE_REPO_THRESHOLD = 100000` is the
source's, with the git call for the total commit count replaced by the
`totalCommits` argument. -/
def getRepoStats (totalCommits : Nat) : RepoStats :=
  let LARGE_REPO_THRESHOLD := 10000
  let HUGE_REPO_THRESHOLD := 100000
  let recommendedMode :=
    if totalCommits > HUGE_REPO_THRESHOLD then "simplified"
    else if totalCommits > LARGE_REPO_THRESHOLD then "paginated"
    else "full"
  { totalCommits := totalCommits
    isLargeRepo := totalCommits > LARGE_REPO_THRESHOLD
    recommendedMode := recommendedMode }

/-- Paginated fetch result, from the `PaginatedCommits` interface. -/
structure PaginatedCommits where
  commits : List Commit
  total : Nat
  hasMore : Bool
deriving DecidableEq, Repr

/-- Paginated fetch, from `GitService.getCommitsPaginated`.  The
`git log` call with `maxCount: maxCount + 1` and `--skip: skip` over the
enumeration `log` is embedded as `(log.drop skip).take (maxCount + 1)`; the
source then sets `hasMore = log.all.length > maxCount` and returns
`log.all.slice(0, maxCount)`; `total` is the `rev-list --all --count` value
fetched in parallel, here passed in by the caller. -/
def getCommitsPaginated (log : List Commit) (total maxCount skip : Nat) :
    PaginatedCommits :=
  let fetched := (log.drop skip).take (maxCount + 1)
  { commits := fetched.take maxCount
    total := total
    hasMore := decide (fetched.length > maxCount) }

/-- Repository, embedded by the results of its git enumerations: `full` is the
`git log --all --date-order` enumeration and `firstParentLog` the same with
`--first-parent`.  `rev-list --all --count` equals `full.length` (both walk
the commits reachable from all refs), and the first-parent walk visits a
subset of those commits, so its enumeration is no longer than the full one. -/
structure Repo where
  full : List Commit
  firstParentLog : List Commit
  fp_le : firstParentLog.length ≤ full.length

/-- Total commit count of a repository (`rev-list --all --count`). -/
def Repo.total (r : Repo) : Nat := r.full.length

/-- The enumeration `git log` walks for a given `firstParent` flag (the
source's `logOptions` differ only in the `--first-parent` switch). -/
def Repo.log (r : Repo) (firstParent : Bool) : List Commit :=
  if firstParent then r.firstParentLog else r.full

/-- `getCommitsPaginated` as invoked on a repository: the enumeration is
selected by the `firstParent` option and `total` comes from
`getTotalCommitCount`. -/
def repoCommitsPaginated (r : Repo) (firstParent : Bool) (maxCount skip : Nat) :
    PaginatedCommits :=
  getCommitsPaginated (r.log firstParent) r.total maxCount skip

/-- Commit with a given hash and parent list and empty metadata, for concrete
test repositories. -/
def mkCommit (h : String) (parents : List String) : Commit :=
  { hash := h, shortHash := h, message := "", body := "", author := ⟨"", ""⟩
    date := "", parents := parents, refs := [] }

/-- Concrete repository with two commits of which only one is on the
first-parent lineage. -/
def pagRepoCE : Repo :=
  { full := [mkCommit "a" [], mkCommit "b" []]
    firstParentLog := [mkCommit "a" []]
    fp_le := by decide }

/-- One yielded item of the `streamCommits` generator: `{ commits, progress,
total }`.  `progress` is `Option ℤ`: the source computes
`Math.min(100, Math.round(((skip + result.commits.length) / total) * 100))`,
which is `NaN` when `total` is `0`; `none` embeds that `NaN`. -/
structure Chunk where
  commits : List Commit
  progress : Option ℤ
  total : Nat
deriving DecidableEq, Repr

/-- Progress value of a chunk, from the source expression
`Math.min(100, Math.round(((skip + result.commits.length) / total) * 100))`
with `cum = skip + result.commits.length`: `NaN` (`none`) when `total = 0`,
otherwise the exact-rational evaluation (`round` rounds half towards plus
infinity, as `Math.round` does). -/
def progressOf (total cum : Nat) : Option ℤ :=
  if total = 0 then none
  else some (min 100 (round ((cum : ℚ) / (total : ℚ) * 100)))

/-- The chunk yielded by one iteration of the `streamCommits` loop at offset
`skip`: the page fetched by `getCommitsPaginated` with its progress value. -/
def chunkAt (log : List Commit) (total chunkSize skip : Nat) : Chunk :=
  let result := getCommitsPaginated log total chunkSize skip
  { commits := result.commits
    progress := progressOf total (skip + result.commits.length)
    total := total }

/-- Loop body of the `streamCommits` generator.  The source is a
`while (true)` loop: fetch a page of `chunkSize` commits at `skip`, always
yield it together with its progress, stop unless `result.hasMore` and the
page is non-empty, otherwise advance `skip` by `chunkSize`.  The loop is
embedded with a fuel argument; `streamGo_fuel_irrelevant` below shows any
fuel exceeding `log.length - skip` gives the loop's exact behaviour, so the
fuel never runs out at the entry point `streamCommits`. -/
def streamGo (log : List Commit) (total chunkSize : Nat) :
    Nat → Nat → List Chunk
  | 0, _ => []
  | fuel + 1, skip =>
    let result := getCommitsPaginated log total chunkSize skip
    if result.hasMore && !(result.commits.length == 0) then
      chunkAt log total chunkSize skip ::
        streamGo log total chunkSize fuel (skip + chunkSize)
    else
      [chunkAt log total chunkSize skip]

/-- Chunked generator, from `GitService.streamCommits`: `total` is
`getTotalCommitCount`, each iteration calls `getCommitsPaginated` with
`maxCount = chunkSize`, and the loop starts at `skip = 0`. -/
def streamCommits (log : List Commit) (total chunkSize : Nat) : List Chunk :=
  streamGo log total chunkSize (log.length + 1) 0

/-- `streamCommits` as invoked on a repository, enumeration selected by the
`firstParent` option. -/
def repoStreamCommits (r : Repo) (chunkSize : Nat) (firstParent : Bool) :
    List Chunk :=
  streamCommits (r.log firstParent) r.total chunkSize

/-- The spec's range property for stream progress values: every yielded chunk
carries a numeric progress between 0 and 100 (a `NaN` progress has no
numeric value at all, so it falsifies this). -/
def ProgressInRange (s : List Chunk) : Prop :=
  ∀ ch ∈ s, ∃ p : ℤ, ch.progress = some p ∧ 0 ≤ p ∧ p ≤ 100

/-- Concrete repository with no commits at all. -/
def emptyRepo : Repo :=
  { full := [], firstParentLog := [], fp_le := by decide }

/-- Layout options, from the `LayoutOptions` interface of the layout
engine.  Coordinates and spacings are embedded as exact rationals. -/
structure LayoutOptions where
  direction : String
  nodeSpacing : ℚ
  rankSpacing : ℚ
deriving DecidableEq, Repr

/-- Display settings, from the `GraphSettings` interface; the JS
`Set<string>` of highlighted hashes is embedded as a list of hashes. -/
structure GraphSettings where
  compactMode : Bool
  colorByAuthor : Bool
  highlightedCommits : List String
deriving DecidableEq, Repr

/-- The graph handed to the dagre subroutine: the `g.setGraph` options, the
node boxes registered by `g.setNode`, and the pairs registered by
`g.setEdge`. -/
structure DagreGraph where
  rankdir : String
  nodesep : ℚ
  ranksep : ℚ
  nodeIds : List (String × ℚ × ℚ)
  edgePairs : List (String × String)
deriving DecidableEq, Repr

/-- Positioned node of the produced graph, from `CommitNode`: the source
keeps the whole commit in `data`; the embedding keeps its identifying hash
together with the layout-relevant fields. -/
structure CommitNode where
  id : String
  x : ℚ
  y : ℚ
  color : String
  isCompact : Bool
  isHighlighted : Bool
deriving DecidableEq, Repr

/-- Produced edge, from `CommitEdge` (the `style.stroke` colour repeats
`data.color` and is omitted). -/
structure CommitEdge where
  id : String
  source : String
  target : String
  isMerge : Bool
  color : String
deriving DecidableEq, Repr

/-- Graph layout, from `layoutCommitGraph` of
`src/frontend/src/utils/layoutEngine.ts`.  The external collaborators are
parameters: `dagreLayout` abstracts `dagre.layout(g)` followed by reading
`g.node(hash)` (the centre coordinates dagre assigned), and
`assignBranchColors` / `assignAuthorColors` abstract the two colour maps
(`Map.get` returning `Option`, defaulted to `"#888"` by `|| '#888'` as in
the source).  The `for` loop over `commit.parents` with index `i` is
embedded as `filterMap` over `List.range`; the compact spacing factor `0.6`
is the exact rational `6 / 10`. -/
def layoutCommitGraph (dagreLayout : DagreGraph → String → ℚ × ℚ)
    (assignBranchColors assignAuthorColors :
      List Commit → String → Option String)
    (commits : List Commit) (options : LayoutOptions)
    (graphSettings : GraphSettings) : List CommitNode × List CommitEdge :=
  if commits.length = 0 then ([], [])
  else
    let nodeWidth : ℚ := if graphSettings.compactMode then 200 else 280
    let nodeHeight : ℚ := if graphSettings.compactMode then 60 else 100
    let nodeSpacing :=
      if graphSettings.compactMode then options.nodeSpacing * (6 / 10)
      else options.nodeSpacing
    let rankSpacing :=
      if graphSettings.compactMode then options.rankSpacing * (6 / 10)
      else options.rankSpacing
    let colorMap :=
      if graphSettings.colorByAuthor then assignAuthorColors commits
      else assignBranchColors commits
    let commitSet := commits.map (fun c => c.hash)
    let edges : List CommitEdge := commits.flatMap (fun c =>
      (List.range c.parents.length).filterMap (fun i =>
        let parentHash := c.parents.getD i ""
        if parentHash ∈ commitSet then
          some { id := c.hash ++ "-" ++ parentHash
                 source := c.hash
                 target := parentHash
                 isMerge := decide (i > 0)
                 color := (colorMap c.hash).getD "#888" }
        else none))
    let g : DagreGraph :=
      { rankdir := options.direction
        nodesep := nodeSpacing
        ranksep := rankSpacing
        nodeIds := commits.map (fun c => (c.hash, nodeWidth, nodeHeight))
        edgePairs := edges.map (fun e => (e.source, e.target)) }
    let nodes : List CommitNode := commits.map (fun c =>
      let pos := dagreLayout g c.hash
      { id := c.hash
        x := pos.1 - nodeWidth / 2
        y := pos.2 - nodeHeight / 2
        color := (colorMap c.hash).getD "#888"
        isCompact := graphSettings.compactMode
        isHighlighted := decide (c.hash ∈ graphSettings.highlightedCommits) })
    (nodes, edges)

/-- Branch record, from the `Branch` interface. -/
structure Branch where
  name : String
  commit : String
  isRemote : Bool
  isHead : Bool
deriving DecidableEq, Repr

/-- Tag record, from the `Tag` interface. -/
structure Tag where
  name : String
  commit : String
deriving DecidableEq, Repr

/-- Repository metadata, from the `RepositoryMetadata` interface carried by
the SSE `metadata` event. -/
structure RepositoryMetadata where
  path : String
  name : String
  currentBranch : String
  branches : List Branch
  tags : List Tag
  stats : RepoStats
deriving DecidableEq, Repr

/-- Client-side repository view: the `Repository` object the store builds in
`onMetadata`, with the `loadedCommitCount` / `totalCommitCount` fields the
store adds. -/
structure RepositoryView where
  path : String
  name : String
  currentBranch : String
  branches : List Branch
  tags : List Tag
  commits : List Commit
  stats : RepoStats
  loadedCommitCount : Nat
  totalCommitCount : Nat
deriving DecidableEq, Repr

/-- The slice of the `useRepositoryStore` state the streaming callbacks
read and write, together with the `allCommits` accumulation buffer that the
callbacks of one `loadRepoWithMode` call capture.  `loadingProgress` is the
store's number with `-1` as the indeterminate sentinel; `abortStream` is
`true` when an abort handle is installed. -/
structure StoreState where
  repository : Option RepositoryView
  error : Option String
  isLoading : Bool
  loadingProgress : ℤ
  loadingMessage : String
  selectedCommit : Option Commit
  abortStream : Bool
  allCommits : List Commit
deriving DecidableEq, Repr

/-- Start of the streaming branch of `loadRepoWithMode`: the two `set` calls
before `streamRepository` is invoked, plus the fresh empty `allCommits`
buffer. -/
def startStreaming (s : StoreState) : StoreState :=
  { s with
    isLoading := true
    error := none
    selectedCommit := none
    loadingMessage := "Starting stream..."
    loadingProgress := 5
    allCommits := [] }

/-- The store's `onMetadata` callback: installs a fresh repository view with
no commits and the totals taken from the metadata stats. -/
def onMetadata (s : StoreState) (m : RepositoryMetadata) : StoreState :=
  { s with
    repository := some
      { path := m.path
        name := m.name
        currentBranch := m.currentBranch
        branches := m.branches
        tags := m.tags
        commits := []
        stats := m.stats
        loadedCommitCount := 0
        totalCommitCount := m.stats.totalCommits }
    loadingMessage := "Loading commits..." }

/-- The store's `onCommits` callback: pushes the arriving batch onto
`allCommits` and replaces the view's commit list by a copy of the buffer
(`commits: [...allCommits]`), with `loadedCommitCount = allCommits.length`;
when no repository view is installed the view stays `null`.
`toLocaleString` is embedded as `toString`. -/
def onCommits (s : StoreState) (commits : List Commit) (progress : ℤ)
    (total : Nat) : StoreState :=
  let allCommits := s.allCommits ++ commits
  { s with
    allCommits := allCommits
    repository :=
      match s.repository with
      | some r => some
          { r with
            commits := allCommits
            loadedCommitCount := allCommits.length
            totalCommitCount := total }
      | none => none
    loadingProgress := progress
    loadingMessage := "Loaded " ++ toString allCommits.length ++ " of " ++
      toString total ++ " commits..." }

/-- The store's `onComplete` callback. -/
def onComplete (s : StoreState) : StoreState :=
  { s with
    isLoading := false
    loadingProgress := 100
    loadingMessage := ""
    abortStream := false }

/-- The store's `onError` callback: records the message and clears the
loading state; it does not touch `repository`. -/
def onError (s : StoreState) (message : String) : StoreState :=
  { s with
    error := some message
    isLoading := false
    loadingProgress := -1
    loadingMessage := ""
    abortStream := false }

/-- One `commits` event as the consumer receives it. -/
structure CommitsEvent where
  commits : List Commit
  progress : ℤ
  total : Nat
deriving DecidableEq, Repr

/-- Consumption of a sequence of `commits` events in arrival order. -/
def processCommitsEvents (s : StoreState) (evs : List CommitsEvent) :
    StoreState :=
  evs.foldl (fun st ev => onCommits st ev.commits ev.progress ev.total) s

/-- Events of the SSE wire protocol of `POST /repository/stream`. -/
inductive SSEEvent where
  | metadata (m : RepositoryMetadata)
  | commits (ch : Chunk)
  | complete
  | error (message : String)
deriving DecidableEq, Repr

/-- Terminal events are `complete` and `error`. -/
def SSEEvent.isTerminal : SSEEvent → Bool
  | .complete => true
  | .error _ => true
  | .metadata _ => false
  | .commits _ => false

/-- SSE handler of `POST /repository/stream` after validation succeeded,
embedded by the outcomes of its awaited calls: `metaResult` is the outcome
of `getRepositoryMetadata` (written as the `metadata` event on success);
`chunks` are the generator items written as `commits` events before the
stream either ends (`streamErr = none`, a `complete` event follows) or
throws (`streamErr = some e`); the `catch` block writes any failure as a
single `error` event and ends the response. -/
def streamHandler (metaResult : Except String RepositoryMetadata)
    (chunks : List Chunk) (streamErr : Option String) : List SSEEvent :=
  match metaResult with
  | .error e => [.error e]
  | .ok m =>
      SSEEvent.metadata m :: (chunks.map SSEEvent.commits ++
        (match streamErr with
         | none => [.complete]
         | some e => [.error e]))

/-- The event-ordering contract of the spec: one metadata event first, then
zero or more commits events, then exactly one terminal event, and nothing
after it. -/
def WellFormedStream (evs : List SSEEvent) : Prop :=
  ∃ (m : RepositoryMetadata) (chunks : List Chunk) (term : SSEEvent),
    evs = SSEEvent.metadata m :: (chunks.map SSEEvent.commits ++ [term]) ∧
    term.isTerminal = true

/-- History of 2437 identical-shape commits, for the streaming scenario of
the spec. -/
def scenL : List Commit := List.replicate 2437 (mkCommit "c" [])

/-- Concrete repository with 2437 commits, for the streaming scenario of the
spec. -/
def scenarioRepo : Repo :=
  { full := scenL
    firstParentLog := scenL
    fp_le := Nat.le_refl _ }

end GitVis

namespace GitVis

/-- C1: for every commit count, `getRepoStats` marks the repository large
exactly when the count exceeds 10000, and recommends `simplified` above
100000, `paginated` for counts in (10000, 100000], and `full` otherwise. -/
theorem getRepoStats_classifies (t : Nat) :
    ((getRepoStats t).isLargeRepo = true ↔ 10000 < t) ∧
    (getRepoStats t).recommendedMode =
      (if 100000 < t then "simplified"
       else if 10000 < t then "paginated"
       else "full") := by
  constructor
  · simp [getRepoStats]
  · rfl

/-- C7 counterexample: on a repository whose first-parent lineage is shorter
than the full history (`pagRepoCE`: 2 commits, 1 on the first-parent line), a
first-parent fetch with `skip = 0`, `maxCount = 1` returns `hasMore = false`
although `skip + commits.length = 1 < 2 = total`, so
`hasMore = (skip + commits.length < total)` fails. -/
theorem getCommitsPaginated_hasMore_formula_ce :
    ¬ ((repoCommitsPaginated pagRepoCE true 1 0).hasMore =
        decide (0 + (repoCommitsPaginated pagRepoCE true 1 0).commits.length <
          pagRepoCE.total)) := by
  decide

/-- C7 (amended to non-first-parent fetches): for every repository, skip and
positive maxCount, a fetch with `firstParent = false` satisfies
`hasMore = (skip + commits.length) < total`. -/
theorem getCommitsPaginated_hasMore_formula (r : Repo) (maxCount skip : Nat)
    (hmc : 0 < maxCount) :
    ((repoCommitsPaginated r false maxCount skip).hasMore = true ↔
      skip + (repoCommitsPaginated r false maxCount skip).commits.length <
        r.total) := by
  simp only [repoCommitsPaginated, getCommitsPaginated, Repo.log, Repo.total,
    if_neg Bool.false_ne_true, List.length_take, List.length_drop,
    decide_eq_true_eq, Bool.if_false_left]
  omega

/-- C7 witness: the amended formula at `pagRepoCE`, `maxCount = 1`,
`skip = 0`. -/
theorem getCommitsPaginated_hasMore_formula_wit :
    ((repoCommitsPaginated pagRepoCE false 1 0).hasMore = true ↔
      0 + (repoCommitsPaginated pagRepoCE false 1 0).commits.length <
        pagRepoCE.total) :=
  getCommitsPaginated_hasMore_formula pagRepoCE 1 0 (by decide)

/-- C9: for every fetch with positive maxCount, the returned commits number at
most `maxCount`, and `hasMore` holds exactly when the enumeration with the
same `firstParent` setting has strictly more than `maxCount` entries after
skipping `skip` (the implementation over-fetches `maxCount + 1` entries and
slices back). -/
theorem getCommitsPaginated_overfetch (r : Repo) (firstParent : Bool)
    (maxCount skip : Nat) (hmc : 0 < maxCount) :
    (repoCommitsPaginated r firstParent maxCount skip).commits.length ≤
      maxCount ∧
    ((repoCommitsPaginated r firstParent maxCount skip).hasMore = true ↔
      maxCount < ((r.log firstParent).drop skip).length) := by
  simp only [repoCommitsPaginated, getCommitsPaginated, List.length_take,
    List.length_drop, decide_eq_true_eq]
  omega

/-- C9 witness: the over-fetch characterisation at `pagRepoCE`,
`firstParent = true`, `maxCount = 1`, `skip = 0`. -/
theorem getCommitsPaginated_overfetch_wit :
    (repoCommitsPaginated pagRepoCE true 1 0).commits.length ≤ 1 ∧
    ((repoCommitsPaginated pagRepoCE true 1 0).hasMore = true ↔
      1 < ((pagRepoCE.log true).drop 0).length) :=
  getCommitsPaginated_overfetch pagRepoCE true 1 0 (by decide)

/-- The page fetched at offset `skip` has `min cs (min (cs + 1) (n - skip))`
commits, where `n` is the enumeration length. -/
theorem chunkAt_commits_length (log : List Commit) (total cs skip : Nat) :
    (chunkAt log total cs skip).commits.length =
      min cs (min (cs + 1) (log.length - skip)) := by
  simp [chunkAt, getCommitsPaginated]

/-- One loop iteration that continues: when the fetched page reports more
data and is non-empty, the generator yields the chunk and proceeds at
`skip + chunkSize`. -/
theorem streamGo_cons (log : List Commit) (total cs fuel skip : Nat)
    (hf : fuel ≠ 0)
    (h : ((getCommitsPaginated log total cs skip).hasMore &&
          !((getCommitsPaginated log total cs skip).commits.length == 0)) =
        true) :
    streamGo log total cs fuel skip =
      chunkAt log total cs skip ::
        streamGo log total cs (fuel - 1) (skip + cs) := by
  obtain ⟨f, rfl⟩ := Nat.exists_eq_succ_of_ne_zero hf
  simp only [streamGo, h, if_true, Nat.succ_sub_one]

/-- One loop iteration that stops: when the fetched page reports no more data
or is empty, the generator yields the chunk and terminates. -/
theorem streamGo_last (log : List Commit) (total cs fuel skip : Nat)
    (hf : fuel ≠ 0)
    (h : ¬ ((getCommitsPaginated log total cs skip).hasMore &&
          !((getCommitsPaginated log total cs skip).commits.length == 0)) =
        true) :
    streamGo log total cs fuel skip = [chunkAt log total cs skip] := by
  obtain ⟨f, rfl⟩ := Nat.exists_eq_succ_of_ne_zero hf
  simp only [streamGo]
  rw [if_neg h]

/-- The fuel parameter of `streamGo` is an artefact of the embedding: any
fuel exceeding `log.length - skip` yields the same chunk list, because the
loop recurses only while the page is non-empty (`chunkSize ≥ 1`,
`skip < log.length`) and reports more data (`skip + chunkSize <
log.length`). -/
theorem streamGo_fuel_irrelevant (log : List Commit) (total cs : Nat) :
    ∀ fuel₁ fuel₂ skip, log.length - skip < fuel₁ →
      log.length - skip < fuel₂ →
      streamGo log total cs fuel₁ skip = streamGo log total cs fuel₂ skip := by
  intro fuel₁
  induction fuel₁ with
  | zero => intro fuel₂ skip h₁ h₂; omega
  | succ f₁ ih =>
    intro fuel₂ skip h₁ h₂
    cases fuel₂ with
    | zero => omega
    | succ f₂ =>
      by_cases hc : ((getCommitsPaginated log total cs skip).hasMore &&
          !((getCommitsPaginated log total cs skip).commits.length == 0)) =
          true
      · rw [streamGo_cons log total cs (f₁ + 1) skip (by omega) hc,
          streamGo_cons log total cs (f₂ + 1) skip (by omega) hc]
        simp only [Nat.add_sub_cancel]
        have hc' := hc
        rw [Bool.and_eq_true] at hc'
        have hmore : cs < min (cs + 1) (log.length - skip) := by
          have := hc'.1
          simpa [getCommitsPaginated] using this
        have hnonempty : min cs (min (cs + 1) (log.length - skip)) ≠ 0 := by
          have := hc'.2
          simpa [getCommitsPaginated] using this
        exact congrArg _ (ih f₂ (skip + cs) (by omega) (by omega))
      · rw [streamGo_last log total cs (f₁ + 1) skip (by omega) hc,
          streamGo_last log total cs (f₂ + 1) skip (by omega) hc]

/-- With a non-zero total, every progress value is a number between 0 and
100: the rounded percentage is non-negative and capped by `Math.min`. -/
theorem progressOf_some_range (total cum : Nat) (ht : total ≠ 0) :
    ∃ p : ℤ, progressOf total cum = some p ∧ 0 ≤ p ∧ p ≤ 100 := by
  refine ⟨min 100 (round ((cum : ℚ) / (total : ℚ) * 100)), by
    simp [progressOf, ht], ?_, min_le_left _ _⟩
  refine le_min (by norm_num) ?_
  rw [round_eq]
  refine Int.floor_nonneg.mpr ?_
  positivity

/-- Progress is monotone in the cumulative count: rounding and the `min` cap
preserve the order of the underlying ratios. -/
theorem progressOf_mono (total : Nat) {c₁ c₂ : Nat} (h : c₁ ≤ c₂)
    {p₁ p₂ : ℤ} (h₁ : progressOf total c₁ = some p₁)
    (h₂ : progressOf total c₂ = some p₂) : p₁ ≤ p₂ := by
  unfold progressOf at h₁ h₂
  by_cases ht : total = 0
  · simp [ht] at h₁
  · simp only [ht, if_false] at h₁ h₂
    obtain rfl := Option.some_injective _ h₁.symm
    obtain rfl := Option.some_injective _ h₂.symm
    refine min_le_min le_rfl ?_
    rw [round_eq, round_eq]
    refine Int.floor_le_floor ?_
    have htq : (0 : ℚ) < total := by exact_mod_cast Nat.pos_of_ne_zero ht
    gcongr

/-- The progress field of a yielded chunk is the progress of its cumulative
count. -/
theorem chunkAt_progress (log : List Commit) (total cs skip : Nat) :
    (chunkAt log total cs skip).progress =
      progressOf total (skip + (chunkAt log total cs skip).commits.length) :=
  rfl

/-- A numeric progress value can only arise from a non-zero total. -/
theorem progressOf_total_ne_zero {total cum : Nat} {p : ℤ}
    (h : progressOf total cum = some p) : total ≠ 0 := by
  intro h0
  simp [progressOf, h0] at h

/-- Every chunk the generator yields carries an in-range numeric progress
value when the repository has commits. -/
theorem streamGo_progress_range (log : List Commit) (total cs : Nat)
    (ht : total ≠ 0) :
    ∀ fuel skip, ProgressInRange (streamGo log total cs fuel skip) := by
  intro fuel
  induction fuel with
  | zero => intro skip ch hch; simp [streamGo] at hch
  | succ f ih =>
    intro skip ch hch
    simp only [streamGo] at hch
    have hhead : ∃ p : ℤ, (chunkAt log total cs skip).progress = some p ∧
        0 ≤ p ∧ p ≤ 100 := by
      rw [chunkAt_progress]
      exact progressOf_some_range total _ ht
    split at hch
    · rcases List.mem_cons.mp hch with rfl | hmem
      · exact hhead
      · exact ih _ ch hmem
    · rcases List.mem_cons.mp hch with rfl | hmem
      · exact hhead
      · simp at hmem

/-- The generator's first chunk, for any non-zero fuel, is the page at the
current offset. -/
theorem streamGo_head (log : List Commit) (total cs fuel skip : Nat)
    (hf : fuel ≠ 0) :
    (streamGo log total cs fuel skip).head? =
      some (chunkAt log total cs skip) := by
  obtain ⟨f, rfl⟩ := Nat.exists_eq_succ_of_ne_zero hf
  simp only [streamGo]
  split <;> rfl

/-- The numeric progress values of a stream are monotonically
non-decreasing: each iteration's cumulative count `skip +
commits.length` grows, since a page is at most `chunkSize` long and the
offset advances by `chunkSize`. -/
theorem streamGo_progress_chain (log : List Commit) (total cs : Nat) :
    ∀ fuel skip, List.Chain' (· ≤ ·)
      ((streamGo log total cs fuel skip).filterMap Chunk.progress) := by
  intro fuel
  induction fuel with
  | zero => intro skip; simp [streamGo]
  | succ f ih =>
    intro skip
    by_cases hc : ((getCommitsPaginated log total cs skip).hasMore &&
        !((getCommitsPaginated log total cs skip).commits.length == 0)) =
        true
    · rw [streamGo_cons log total cs (f + 1) skip (by omega) hc]
      simp only [Nat.add_sub_cancel, List.filterMap_cons]
      cases hp : (chunkAt log total cs skip).progress with
      | none => exact ih (skip + cs)
      | some p =>
        rw [List.chain'_cons']
        refine ⟨?_, ih (skip + cs)⟩
        intro q hq
        have ht : total ≠ 0 :=
          progressOf_total_ne_zero (chunkAt_progress log total cs skip ▸ hp)
        rcases Nat.eq_zero_or_pos f with rfl | hfpos
        · simp [streamGo] at hq
        · obtain ⟨p₂, hp₂, _, _⟩ := progressOf_some_range total
            ((skip + cs) + (chunkAt log total cs (skip + cs)).commits.length)
            ht
          have hrest : ((streamGo log total cs f (skip + cs)).filterMap
              Chunk.progress).head? = some p₂ := by
            obtain ⟨f₂, rfl⟩ := Nat.exists_eq_succ_of_ne_zero
              (Nat.pos_iff_ne_zero.mp hfpos)
            simp only [streamGo]
            split <;>
              simp [List.filterMap_cons, chunkAt_progress, hp₂]
          rw [hrest, Option.mem_some_iff] at hq
          subst hq
          refine progressOf_mono total ?_
            (chunkAt_progress log total cs skip ▸ hp) hp₂
          have h₁ := chunkAt_commits_length log total cs skip
          omega
    · rw [streamGo_last log total cs (f + 1) skip (by omega) hc]
      cases hp : (chunkAt log total cs skip).progress <;>
        simp [List.filterMap_cons, hp]

/-- Evaluation of a paginated fetch over a repeated history. -/
theorem getCommitsPaginated_replicate (c : Commit) (n total cs skip : Nat) :
    getCommitsPaginated (List.replicate n c) total cs skip =
      { commits := List.replicate (min cs (min (cs + 1) (n - skip))) c
        total := total
        hasMore := decide (cs < min (cs + 1) (n - skip)) } := by
  simp [getCommitsPaginated, List.drop_replicate, List.take_replicate,
    min_comm]

/-- Evaluation of one stream chunk over a repeated history. -/
theorem chunkAt_replicate (c : Commit) (n total cs skip : Nat) :
    chunkAt (List.replicate n c) total cs skip =
      { commits := List.replicate (min cs (min (cs + 1) (n - skip))) c
        progress :=
          progressOf total (skip + min cs (min (cs + 1) (n - skip)))
        total := total } := by
  simp [chunkAt, getCommitsPaginated_replicate]

/-- The stream over the 2437-commit scenario repository with chunk size 1000
is exactly the three pages at offsets 0, 1000 and 2000. -/
theorem scenario_stream_eq :
    repoStreamCommits scenarioRepo 1000 false =
      [chunkAt scenL 2437 1000 0, chunkAt scenL 2437 1000 (0 + 1000),
       chunkAt scenL 2437 1000 (0 + 1000 + 1000)] := by
  have hrepl : scenL = List.replicate 2437 (mkCommit "c" []) := rfl
  have hlen : scenL.length = 2437 := by
    rw [hrepl]; exact List.length_replicate 2437 _
  have hc0 : ((getCommitsPaginated scenL 2437 1000 0).hasMore &&
      !((getCommitsPaginated scenL 2437 1000 0).commits.length == 0)) =
      true := by
    rw [hrepl, getCommitsPaginated_replicate]
    simp only [List.length_replicate]
    decide
  have hc1 : ((getCommitsPaginated scenL 2437 1000 (0 + 1000)).hasMore &&
      !((getCommitsPaginated scenL 2437 1000 (0 + 1000)).commits.length ==
        0)) = true := by
    rw [hrepl, getCommitsPaginated_replicate]
    simp only [List.length_replicate]
    decide
  have hc2 : ¬ ((getCommitsPaginated scenL 2437 1000
        (0 + 1000 + 1000)).hasMore &&
      !((getCommitsPaginated scenL 2437 1000
        (0 + 1000 + 1000)).commits.length == 0)) = true := by
    rw [hrepl, getCommitsPaginated_replicate]
    simp only [List.length_replicate]
    decide
  have htot : scenarioRepo.total = 2437 := hlen
  show streamCommits (scenarioRepo.log false) scenarioRepo.total 1000 = _
  have hlog : scenarioRepo.log false = scenL := rfl
  rw [hlog, htot]
  unfold streamCommits
  rw [streamGo_cons scenL 2437 1000 (scenL.length + 1) 0 (by omega) hc0]
  rw [streamGo_cons scenL 2437 1000 (scenL.length + 1 - 1) (0 + 1000)
    (by omega) hc1]
  rw [streamGo_last scenL 2437 1000 (scenL.length + 1 - 1 - 1)
    (0 + 1000 + 1000) (by omega) hc2]

/-- Chunk sizes of the scenario stream: 1000, 1000 and 437 commits. -/
theorem scenario_map_lengths :
    (repoStreamCommits scenarioRepo 1000 false).map
      (fun ch => ch.commits.length) = [1000, 1000, 437] := by
  rw [scenario_stream_eq]
  rw [show scenL = List.replicate 2437 (mkCommit "c" []) from rfl]
  simp only [chunkAt_replicate, List.map_cons, List.map_nil,
    List.length_replicate]
  norm_num

/-- Progress reports of the scenario stream: 41, 82, then 100. -/
theorem scenario_map_progress :
    (repoStreamCommits scenarioRepo 1000 false).map Chunk.progress =
      [some 41, some 82, some 100] := by
  rw [scenario_stream_eq]
  rw [show scenL = List.replicate 2437 (mkCommit "c" []) from rfl]
  simp only [chunkAt_replicate, List.map_cons, List.map_nil,
    List.length_replicate]
  norm_num [progressOf, round_eq]

/-- C10: for every repository handle, chunk size and first-parent setting,
`streamCommits` yields at least one chunk; on a repository whose total commit
count is 0 it yields exactly one `commits` event with an empty batch and
`total = 0` (its progress is the `NaN` of the zero division), then stops. -/
theorem streamCommits_yields_at_least_one (r : Repo) (chunkSize : Nat)
    (firstParent : Bool) :
    repoStreamCommits r chunkSize firstParent ≠ [] ∧
    (r.total = 0 → repoStreamCommits r chunkSize firstParent =
      [{ commits := [], progress := none, total := 0 }]) := by
  constructor
  · intro hnil
    have hh := streamGo_head (r.log firstParent) r.total chunkSize
      ((r.log firstParent).length + 1) 0 (by omega)
    rw [show streamGo (r.log firstParent) r.total chunkSize
        ((r.log firstParent).length + 1) 0 =
        repoStreamCommits r chunkSize firstParent from rfl, hnil] at hh
    simp at hh
  · intro h0
    have hfull : r.full = [] := List.length_eq_zero.mp h0
    have hfp : r.firstParentLog = [] := by
      have hle := r.fp_le
      rw [hfull] at hle
      simpa using List.length_eq_zero.mp (Nat.le_zero.mp hle)
    have hlog : r.log firstParent = [] := by
      cases firstParent <;> simp [Repo.log, hfull, hfp]
    show streamCommits (r.log firstParent) r.total chunkSize = _
    rw [hlog, h0]
    have hc : ¬ ((getCommitsPaginated ([] : List Commit) 0 chunkSize
          0).hasMore &&
        !((getCommitsPaginated ([] : List Commit) 0 chunkSize
          0).commits.length == 0)) = true := by
      simp [getCommitsPaginated]
    show streamGo [] 0 chunkSize (List.length ([] : List Commit) + 1) 0 = _
    rw [streamGo_last [] 0 chunkSize _ 0 (by simp) hc]
    simp [chunkAt, getCommitsPaginated, progressOf]

/-- C4 counterexample: on a repository with no commits, the single chunk
yielded by `streamCommits` carries the `NaN` progress of the zero division —
not a number between 0 and 100 — so the range clause of the claim fails for
that repository handle. -/
theorem streamCommits_progress_range_ce :
    ¬ ProgressInRange (repoStreamCommits emptyRepo 500 false) := by
  intro h
  have h1 : repoStreamCommits emptyRepo 500 false =
      [{ commits := [], progress := none, total := 0 }] := by
    have hc : ¬ ((getCommitsPaginated ([] : List Commit) 0 500 0).hasMore &&
        !((getCommitsPaginated ([] : List Commit) 0 500 0).commits.length ==
          0)) = true := by decide
    show streamGo [] emptyRepo.total 500 (List.length ([] : List Commit) + 1)
        0 = _
    rw [show emptyRepo.total = 0 from rfl,
      streamGo_last [] 0 500 _ 0 (by simp) hc]
    rfl
  rw [h1] at h
  obtain ⟨p, hp, -, -⟩ := h _ (List.mem_singleton.mpr rfl)
  simp at hp

/-- C4 (amended to repositories with at least one commit; on an empty
repository the single progress value is the `NaN` of the zero division): for
every repository with a positive commit total, every chunk size and
first-parent setting, all progress values yielded by `streamCommits` are
numbers in [0, 100] and are monotonically non-decreasing; and the scenario
stream of 3 chunks of sizes [1000, 1000, 437] with total 2437 reports the
non-decreasing progress values 41, 82, 100, ending at 100. -/
theorem streamCommits_progress_props (r : Repo) (chunkSize : Nat)
    (firstParent : Bool) (h : 0 < r.total) :
    ProgressInRange (repoStreamCommits r chunkSize firstParent) ∧
    List.Chain' (· ≤ ·)
      ((repoStreamCommits r chunkSize firstParent).filterMap
        Chunk.progress) ∧
    (repoStreamCommits scenarioRepo 1000 false).map
        (fun ch => ch.commits.length) = [1000, 1000, 437] ∧
    (repoStreamCommits scenarioRepo 1000 false).map Chunk.progress =
      [some 41, some 82, some 100] := by
  exact ⟨streamGo_progress_range _ _ _ (by omega) _ _,
    streamGo_progress_chain _ _ _ _ _, scenario_map_lengths,
    scenario_map_progress⟩

/-- C5: for every commit list and every setting, the produced edge set is
exactly the set of child-to-parent relations whose parent hash is present in
the supplied commits, each tagged `isMerge = (parent index > 0)`, and no
edge endpoint lies outside the supplied hashes (absent parents are silently
dropped). -/
theorem layoutCommitGraph_edge_set (dl : DagreGraph → String → ℚ × ℚ)
    (bc ac : List Commit → String → Option String)
    (commits : List Commit) (options : LayoutOptions)
    (gs : GraphSettings) :
    (∀ s t m,
      (∃ e ∈ (layoutCommitGraph dl bc ac commits options gs).2,
        e.source = s ∧ e.target = t ∧ e.isMerge = m) ↔
      (∃ c ∈ commits, ∃ i : Nat, ∃ hi : i < c.parents.length,
        s = c.hash ∧ t = c.parents.get ⟨i, hi⟩ ∧ m = decide (0 < i) ∧
        t ∈ commits.map (fun c => c.hash))) ∧
    (∀ e ∈ (layoutCommitGraph dl bc ac commits options gs).2,
      e.source ∈ commits.map (fun c => c.hash) ∧
      e.target ∈ commits.map (fun c => c.hash)) := by
  by_cases h0 : commits.length = 0
  · obtain rfl := List.length_eq_zero.mp h0
    simp [layoutCommitGraph]
  · have hmem : ∀ e : CommitEdge,
        e ∈ (layoutCommitGraph dl bc ac commits options gs).2 ↔
        ∃ c ∈ commits, ∃ i : Nat, i < c.parents.length ∧
          c.parents.getD i "" ∈ commits.map (fun c => c.hash) ∧
          e = { id := c.hash ++ "-" ++ c.parents.getD i ""
                source := c.hash
                target := c.parents.getD i ""
                isMerge := decide (i > 0)
                color :=
                  ((if gs.colorByAuthor then ac commits
                    else bc commits) c.hash).getD "#888" } := by
      intro e
      simp only [layoutCommitGraph, if_neg h0, List.mem_flatMap,
        List.mem_filterMap, List.mem_range]
      constructor
      · rintro ⟨c, hc, i, hi, hsome⟩
        split at hsome
        · exact ⟨c, hc, i, hi, by assumption, (Option.some_injective _
            hsome).symm⟩
        · exact absurd hsome (by simp)
      · rintro ⟨c, hc, i, hi, hin, rfl⟩
        exact ⟨c, hc, i, hi, by rw [if_pos hin]⟩
    constructor
    · intro s t m
      constructor
      · rintro ⟨e, he, rfl, rfl, rfl⟩
        obtain ⟨c, hc, i, hi, hin, rfl⟩ := (hmem e).mp he
        exact ⟨c, hc, i, hi, rfl, List.getD_eq_get _ _ hi, rfl, hin⟩
      · rintro ⟨c, hc, i, hi, rfl, rfl, rfl, hin⟩
        refine ⟨{ id := c.hash ++ "-" ++ c.parents.getD i ""
                  source := c.hash
                  target := c.parents.getD i ""
                  isMerge := decide (i > 0)
                  color :=
                    ((if gs.colorByAuthor then ac commits
                      else bc commits) c.hash).getD "#888" },
            (hmem _).mpr ⟨c, hc, i, hi, ?_, rfl⟩, rfl, ?_, rfl⟩
        · rw [List.getD_eq_get _ _ hi]
          exact hin
        · exact List.getD_eq_get _ _ hi
    · intro e he
      obtain ⟨c, hc, i, hi, hin, rfl⟩ := (hmem e).mp he
      exact ⟨List.mem_map.mpr ⟨c, hc, rfl⟩, hin⟩

/-- C6: the produced positions (and the edges) do not depend on the
highlighted-commit set: two calls differing only in `highlightedCommits`
agree on every node's identity, position, colour and compact flag, and on
the whole edge list; only the `isHighlighted` flag can differ. -/
theorem layoutCommitGraph_highlight_independent
    (dl : DagreGraph → String → ℚ × ℚ)
    (bc ac : List Commit → String → Option String)
    (commits : List Commit) (options : LayoutOptions)
    (compactMode colorByAuthor : Bool) (hl₁ hl₂ : List String) :
    (layoutCommitGraph dl bc ac commits options
        { compactMode := compactMode, colorByAuthor := colorByAuthor
          highlightedCommits := hl₁ }).1.map
        (fun n => (n.id, n.x, n.y, n.color, n.isCompact)) =
      (layoutCommitGraph dl bc ac commits options
        { compactMode := compactMode, colorByAuthor := colorByAuthor
          highlightedCommits := hl₂ }).1.map
        (fun n => (n.id, n.x, n.y, n.color, n.isCompact)) ∧
    (layoutCommitGraph dl bc ac commits options
        { compactMode := compactMode, colorByAuthor := colorByAuthor
          highlightedCommits := hl₁ }).2 =
      (layoutCommitGraph dl bc ac commits options
        { compactMode := compactMode, colorByAuthor := colorByAuthor
          highlightedCommits := hl₂ }).2 := by
  by_cases h0 : commits.length = 0
  · simp [layoutCommitGraph, h0]
  · simp only [layoutCommitGraph, if_neg h0, List.map_map]
    exact ⟨rfl, trivial⟩

/-- After consuming any sequence of commits events, the accumulation buffer
is the starting buffer followed by the concatenated batches. -/
theorem processCommitsEvents_allCommits (evs : List CommitsEvent) :
    ∀ s : StoreState, (processCommitsEvents s evs).allCommits =
      s.allCommits ++ (evs.map CommitsEvent.commits).flatten := by
  induction evs with
  | nil => intro s; simp [processCommitsEvents]
  | cons ev evs ih =>
    intro s
    simp only [processCommitsEvents, List.foldl_cons] at ih ⊢
    rw [ih]
    simp [onCommits]

/-- Invariant of the streaming merge: if the view mirrors the buffer, it
still does after consuming any sequence of commits events. -/
theorem processCommitsEvents_inv (evs : List CommitsEvent) :
    ∀ (s : StoreState) (r : RepositoryView), s.repository = some r →
      r.commits = s.allCommits →
      r.loadedCommitCount = s.allCommits.length →
      ∃ r', (processCommitsEvents s evs).repository = some r' ∧
        r'.commits = (processCommitsEvents s evs).allCommits ∧
        r'.loadedCommitCount = r'.commits.length := by
  induction evs with
  | nil =>
    intro s r h1 h2 h3
    exact ⟨r, h1, by simpa [processCommitsEvents] using h2,
      by rw [h2]; exact h3⟩
  | cons ev evs ih =>
    intro s r h1 h2 h3
    simp only [processCommitsEvents, List.foldl_cons] at ih ⊢
    exact ih (onCommits s ev.commits ev.progress ev.total)
      { r with
        commits := s.allCommits ++ ev.commits
        loadedCommitCount := (s.allCommits ++ ev.commits).length
        totalCommitCount := ev.total }
      (by simp [onCommits, h1]) (by simp [onCommits]) (by simp [onCommits])

/-- C3: starting a streaming load and consuming the commits events carrying
chunks `c1, ..., cn` in order leaves the repository view holding exactly
`concat(c1, ..., cn)` — no re-sorting, no de-duplication, no drops — with
`loadedCommitCount` equal to the sum of the chunk lengths. -/
theorem consumer_merge_concat (s₀ : StoreState) (m : RepositoryMetadata)
    (evs : List CommitsEvent) :
    ∃ r, (processCommitsEvents (onMetadata (startStreaming s₀)
        m) evs).repository = some r ∧
      r.commits = (evs.map CommitsEvent.commits).flatten ∧
      r.loadedCommitCount =
        ((evs.map CommitsEvent.commits).map List.length).sum := by
  obtain ⟨r, h1, h2, h3⟩ := processCommitsEvents_inv evs
    (onMetadata (startStreaming s₀) m) _ rfl
    (by simp [onMetadata, startStreaming]) (by simp [onMetadata,
      startStreaming])
  refine ⟨r, h1, ?_, ?_⟩
  · rw [h2, processCommitsEvents_allCommits]
    simp [onMetadata, startStreaming]
  · rw [h3, h2, processCommitsEvents_allCommits]
    simp [onMetadata, startStreaming, List.length_flatten]

/-- C8: the consumer's error handler surfaces the message verbatim and
leaves the repository view untouched, so every commit merged before the
failure is still in the view: after metadata, any chunk sequence and then an
error, the view still holds the concatenation of the merged chunks. -/
theorem consumer_error_preserves (s₀ : StoreState) (m : RepositoryMetadata)
    (evs : List CommitsEvent) (msg : String) :
    (∀ s : StoreState, (onError s msg).repository = s.repository ∧
      (onError s msg).error = some msg) ∧
    ∃ r, (onError (processCommitsEvents (onMetadata (startStreaming s₀) m)
        evs) msg).repository = some r ∧
      r.commits = (evs.map CommitsEvent.commits).flatten := by
  refine ⟨fun s => ⟨rfl, rfl⟩, ?_⟩
  obtain ⟨r, h1, h2, h3⟩ := processCommitsEvents_inv evs
    (onMetadata (startStreaming s₀) m) _ rfl
    (by simp [onMetadata, startStreaming]) (by simp [onMetadata,
      startStreaming])
  refine ⟨r, ?_, ?_⟩
  · rw [show (onError (processCommitsEvents (onMetadata (startStreaming s₀)
        m) evs) msg).repository = (processCommitsEvents (onMetadata
        (startStreaming s₀) m) evs).repository from rfl]
    exact h1
  · rw [h2, processCommitsEvents_allCommits]
    simp [onMetadata, startStreaming]

/-- C2 counterexample: when the metadata fetch itself throws (the `catch`
block is entered before the `metadata` event was written), the stream is a
single `error` event with no preceding `metadata` event, falsifying the
claimed shape. -/
theorem stream_events_shape_ce :
    ¬ WellFormedStream (streamHandler (Except.error "boom") [] none) := by
  rintro ⟨m, chunks, term, heq, -⟩
  simp [streamHandler] at heq

/-- C2 (amended: the shape holds for every stream whose metadata fetch
succeeds; when the metadata fetch fails the stream is exactly one `error`
event): after a successful metadata fetch the emitted events are one
`metadata` event, then the `commits` events, then exactly one terminal
event — `complete` if the generator finished, `error` with the thrown
message otherwise — and nothing after it. -/
theorem stream_events_shape (m : RepositoryMetadata) (chunks : List Chunk)
    (streamErr : Option String) (e : String) :
    WellFormedStream (streamHandler (Except.ok m) chunks streamErr) ∧
    streamHandler (Except.error e) chunks streamErr = [SSEEvent.error e] := by
  constructor
  · cases streamErr with
    | none => exact ⟨m, chunks, SSEEvent.complete, rfl, rfl⟩
    | some er => exact ⟨m, chunks, SSEEvent.error er, rfl, rfl⟩
  · rfl

/-- C4 witness: the amended properties at the scenario repository (2437
commits, chunk size 1000). -/
theorem streamCommits_progress_props_wit :
    ProgressInRange (repoStreamCommits scenarioRepo 1000 false) ∧
    List.Chain' (· ≤ ·)
      ((repoStreamCommits scenarioRepo 1000 false).filterMap
        Chunk.progress) ∧
    (repoStreamCommits scenarioRepo 1000 false).map
        (fun ch => ch.commits.length) = [1000, 1000, 437] ∧
    (repoStreamCommits scenarioRepo 1000 false).map Chunk.progress =
      [some 41, some 82, some 100] :=
  streamCommits_progress_props scenarioRepo 1000 false
    (by have h : scenarioRepo.total = 2437 :=
          List.length_replicate 2437 (mkCommit "c" [])
        omega)

end GitVis
